import Mathlib

/-!
Verification development for the habit tracker's period/streak engine
(`habit_tracker.py`).

Modelling conventions:
* A calendar date is an `Int`: the number of days since a fixed epoch Monday,
  so `weekday d = d % 7` matches Python's `date.weekday()` (Monday = 0).
* A Python `datetime` is a `DT`: its calendar date plus a time-of-day
  component; `DT.le` is the lexicographic order Python uses on `datetime`.
* Python's `sorted(completions)[-1]` is the greatest completion under that
  order (stable ascending sort, last element); `lastMax` computes it by a
  left fold that favours later elements on ties, exactly as the stable sort
  does.
* The source functions `get_current_streak`, `get_longest_streak` and
  `get_struggling_habits` call `datetime.now()` internally; the value read
  from the ambient clock is made explicit here as the `now` argument.
* Python `//` and `%` on ints agree with Lean's `Int.ediv` / `Int.emod` for
  the positive divisors (1 and 7) used here.
-/

/-- A Python `datetime`: calendar date (`day`, days since an epoch Monday)
plus a time-of-day component. -/
structure DT where
  day : Int
  tod : Nat
deriving Repr, DecidableEq

/-- Lexicographic order on `datetime` values, as Python compares them. -/
def DT.le (a b : DT) : Bool :=
  decide (a.day < b.day ∨ (a.day = b.day ∧ a.tod ≤ b.tod))

/-- `date.weekday()`: Monday = 0, ..., Sunday = 6. -/
def weekday (d : Int) : Int := d % 7

/-- The `Habit` record (`Habit.__init__` fields). -/
structure Habit where
  id : String
  name : String
  description : String
  periodicity : String
  created_at : DT
  completions : List DT
deriving Repr, DecidableEq

/-- `Habit.__init__`: rejects a periodicity outside `{daily, weekly}` with a
`ValueError` (the spec's `InvalidCadence`); `completions=None` becomes `[]`.
`id` and `created_at` defaults (uuid, wall clock) are supplied by the caller
here, as they are external collaborators. -/
def Habit.make (name description periodicity : String) (id : String)
    (created_at : DT) (completions : Option (List DT)) : Except String Habit :=
  if periodicity ∈ (["daily", "weekly"] : List String) then
    .ok { id := id, name := name, description := description,
          periodicity := periodicity, created_at := created_at,
          completions := completions.getD [] }
  else
    .error "Periodicity must be 'daily' or 'weekly'"

/-- `sorted(completions)[-1]` for the non-empty list `a :: l`: the greatest
element under `DT.le`, taking the later element on ties as a stable
ascending sort does. -/
def lastMax (a : DT) (l : List DT) : DT :=
  l.foldl (fun acc c => if DT.le acc c then c else acc) a

/-- `Habit.is_task_completed_for_period`. -/
def is_task_completed_for_period (h : Habit) (target : DT) : Bool :=
  if h.periodicity = "daily" then
    h.completions.any (fun c => decide (c.day = target.day))
  else
    let start_of_week := target.day - weekday target.day
    let end_of_week := start_of_week + 6
    h.completions.any (fun c =>
      decide (start_of_week ≤ c.day ∧ c.day ≤ end_of_week))

/-- Completion test at the midnight `datetime` of a date, i.e.
`is_task_completed_for_period(datetime.combine(d, datetime.min.time()))`. -/
def completedOn (h : Habit) (d : Int) : Bool :=
  is_task_completed_for_period h ⟨d, 0⟩

/-- The period anchor of a date for a given cadence: the date itself for
daily, the Monday of its week otherwise (spec's `periodAnchor`). -/
def periodAnchor (periodicity : String) (d : Int) : Int :=
  if periodicity = "daily" then d else d - weekday d

/-- The backward-walk loop shared by both branches of `get_current_streak`:
`while check_date >= created: if completed: streak += 1; step back else
break`. The step is `s + 1` days (`s = 0` daily, `s = 6` weekly). -/
def walkStreak (p : Int → Bool) (low : Int) (s : Nat) (check_date : Int) : Nat :=
  if low ≤ check_date then
    if p check_date then 1 + walkStreak p low s (check_date - (s + 1)) else 0
  else 0
termination_by (check_date + 1 - low).toNat
decreasing_by simp_wf; omega

/-- `Habit.get_current_streak`; `now` is the value the source reads from
`datetime.now()`. -/
def get_current_streak (h : Habit) (now : DT) : Nat :=
  match h.completions with
  | [] => 0
  | c :: cs =>
    let latest_completion := (lastMax c cs).day
    let current_date := now.day
    if h.periodicity = "daily" then
      if latest_completion < current_date then 0
      else walkStreak (completedOn h) h.created_at.day 0 current_date
    else
      let current_week_start := current_date - weekday current_date
      if latest_completion < current_week_start then 0
      else walkStreak (completedOn h) h.created_at.day 6 current_week_start

/-- `sorted(l)[-1]` with the indexing made explicitly fallible: `none` on an
empty list. -/
def sortedLastCompletion : List DT → Option DT
  | [] => none
  | c :: cs => some (lastMax c cs)

/-- `get_current_streak` with its one fallible primitive (`sorted(...)[-1]`)
made explicit: returns `none` exactly when that indexing would raise. -/
def get_current_streak? (h : Habit) (now : DT) : Option Nat :=
  if h.completions.isEmpty then some 0
  else
    match sortedLastCompletion h.completions with
    | none => none
    | some latest =>
      let latest_completion := latest.day
      let current_date := now.day
      some (if h.periodicity = "daily" then
        if latest_completion < current_date then 0
        else walkStreak (completedOn h) h.created_at.day 0 current_date
      else
        let current_week_start := current_date - weekday current_date
        if latest_completion < current_week_start then 0
        else walkStreak (completedOn h) h.created_at.day 6 current_week_start)

/-- The scan in `get_longest_streak`: for each status, a true increments the
running streak and updates the maximum, a false resets the running streak. -/
def longestScan : List Bool → Nat → Nat → Nat
  | [], longest, _ => longest
  | true :: rest, longest, current => longestScan rest (max longest (current + 1)) (current + 1)
  | false :: rest, longest, _ => longestScan rest longest 0

/-- `all_periods` in `get_longest_streak`: every period anchor from the
creation period through the period containing `current_date`. -/
def allPeriods (h : Habit) (current_date : Int) : List Int :=
  let created_date := h.created_at.day
  if h.periodicity = "daily" then
    let days_count := current_date - created_date + 1
    (List.range days_count.toNat).map (fun i : Nat => created_date + (i : Int))
  else
    let first_week_start := created_date - weekday created_date
    let current_week_start := current_date - weekday current_date
    let weeks_count := (current_week_start - first_week_start) / 7 + 1
    (List.range weeks_count.toNat).map (fun i : Nat => first_week_start + (i : Int) * 7)

/-- `completion_status` in `get_longest_streak`. -/
def completionStatus (h : Habit) (current_date : Int) : List Bool :=
  (allPeriods h current_date).map (completedOn h)

/-- `Habit.get_longest_streak`; `now` is the value the source reads from
`datetime.now()`. -/
def get_longest_streak (h : Habit) (now : DT) : Nat :=
  if h.completions.isEmpty then 0
  else longestScan (completionStatus h now.day) 0 0

/-- `check_dates` in `get_struggling_habits.is_struggling`: the period
anchors the window scan actually examines. -/
def strugglingCheckDates (h : Habit) (today : Int) (days : Nat) : List Int :=
  if h.periodicity = "daily" then
    (List.range days).filterMap (fun i : Nat =>
      let check_date := today - (i : Int)
      if h.created_at.day ≤ check_date then some check_date else none)
  else
    let current_week_start := today - weekday today
    let weeks_to_check := days / 7 + 1
    (List.range weeks_to_check).filterMap (fun i : Nat =>
      let check_date := current_week_start - (i : Int) * 7
      if h.created_at.day ≤ check_date then some check_date else none)

/-- `completed_periods` counter of `is_struggling`. -/
def completed_periods (h : Habit) (today : Int) (days : Nat) : Nat :=
  ((strugglingCheckDates h today days).filter (fun d => completedOn h d)).length

/-- `broken_periods` counter of `is_struggling`. -/
def broken_periods (h : Habit) (today : Int) (days : Nat) : Nat :=
  ((strugglingCheckDates h today days).filter (fun d => !completedOn h d)).length

/-- The `is_struggling` predicate of `get_struggling_habits`; `now` is the
value the source reads from `datetime.now()`. -/
def is_struggling (h : Habit) (now : DT) (days : Nat) : Bool :=
  let today := now.day
  decide (broken_periods h today days > completed_periods h today days) &&
    decide (broken_periods h today days + completed_periods h today days > 0)

/-- `get_struggling_habits`. -/
def get_struggling_habits (habits : List Habit) (now : DT) (days : Nat) : List Habit :=
  habits.filter (fun h => is_struggling h now days)

/-- `get_longest_streak_for_habit`. -/
def get_longest_streak_for_habit (habit_id : String) (habits : List Habit)
    (now : DT) : Nat :=
  match habits.filter (fun h => h.id = habit_id) with
  | [] => 0
  | h :: _ => get_longest_streak h now

/-- `get_current_streak_for_habit`. -/
def get_current_streak_for_habit (habit_id : String) (habits : List Habit)
    (now : DT) : Nat :=
  match habits.filter (fun h => h.id = habit_id) with
  | [] => 0
  | h :: _ => get_current_streak h now

/-- The day of `sorted(completions)[-1]` (0 for an empty list; only used
under a non-emptiness hypothesis). -/
def latestCompletionDay (h : Habit) : Int :=
  match h.completions with
  | [] => 0
  | c :: cs => (lastMax c cs).day

/-- The descending list of period anchors `a, a - (s+1), a - 2(s+1), ...`
down to the last one that is still `≥ low` (the sequence of `check_date`
values the streak walk can visit). -/
def backAnchors (low : Int) (s : Nat) (a : Int) : List Int :=
  if low ≤ a then a :: backAnchors low s (a - (s + 1)) else []
termination_by (a + 1 - low).toNat
decreasing_by simp_wf; omega

/-- Step parameter of the streak walk: anchors step back `s + 1` days. -/
def streakStep (h : Habit) : Nat := if h.periodicity = "daily" then 0 else 6

/-- Count of consecutive completed periods walking backward from the period
containing `nowDay`, stopping at the first incomplete period or once the
anchor drops below `low`. -/
def streakWalkFrom (h : Habit) (low : Int) (nowDay : Int) : Nat :=
  ((backAnchors low (streakStep h) (periodAnchor h.periodicity nowDay)).takeWhile
    (completedOn h)).length

/-- The current-streak contract exactly as the spec words it: the backward
walk is bounded by the anchor of the period containing `createdAt` (so for
weekly habits it extends down to the Monday of the creation week). Spec-side
definition, for comparison with `get_current_streak`. -/
def claimStreakWalk (h : Habit) (now : DT) : Nat :=
  streakWalkFrom h (periodAnchor h.periodicity h.created_at.day) now.day

/-- The set of window anchors exactly as the spec words it: period anchors
lying within the closed interval `[now - windowDays, now]` that are on or
after `createdAt`'s period anchor. Spec-side definition, for comparison
with `strugglingCheckDates`. -/
def claimedStrugglingAnchor (h : Habit) (today : Int) (days : Nat) (d : Int) : Prop :=
  periodAnchor h.periodicity d = d ∧ today - (days : Int) ≤ d ∧ d ≤ today ∧
    periodAnchor h.periodicity h.created_at.day ≤ d

/-- Maximum run of `true`s in a boolean list, carrying the length `c` of the
run in progress (reference formulation of the `get_longest_streak` scan). -/
def maxAux : Nat → List Bool → Nat
  | _, [] => 0
  | c, true :: rest => max (c + 1) (maxAux (c + 1) rest)
  | _, false :: rest => maxAux 0 rest

/-- Example: weekly habit created on a Wednesday (day 2), completed at its
creation instant. -/
def exWeeklyMidweek : Habit :=
  ⟨"w1", "Weekly Planning", "plan the week", "weekly", ⟨2, 0⟩, [⟨2, 0⟩]⟩

/-- Example: daily habit created on day 0 and completed that day. -/
def exDaily : Habit :=
  ⟨"d1", "Morning Exercise", "exercise", "daily", ⟨0, 0⟩, [⟨0, 0⟩]⟩

/-- Example: daily habit created on day 0, completed on days 0 and 1. -/
def exDaily2 : Habit :=
  ⟨"d2", "Read Book", "read", "daily", ⟨0, 0⟩, [⟨0, 0⟩, ⟨1, 0⟩]⟩

/-- Example: long-lived daily habit with no completions. -/
def exDailyOld : Habit :=
  ⟨"d3", "Practice Coding", "code", "daily", ⟨-100, 0⟩, []⟩

/-- Example: long-lived weekly habit with no completions. -/
def exWeeklyOld : Habit :=
  ⟨"w2", "Grocery Shopping", "shop", "weekly", ⟨-100, 0⟩, []⟩

/-! ### Helper lemmas -/

theorem DT.le_day {a b : DT} (h : DT.le a b = true) : a.day ≤ b.day := by
  simp only [DT.le, decide_eq_true_eq] at h
  rcases h with h | ⟨h, _⟩ <;> omega

theorem DT.day_le_of_not_le {a b : DT} (h : DT.le a b = false) : b.day ≤ a.day := by
  simp only [DT.le, decide_eq_false_iff_not, not_or, not_and, not_lt] at h
  exact h.1

theorem day_le_lastMax : ∀ (l : List DT) (a c : DT), c ∈ a :: l → c.day ≤ (lastMax a l).day := by
  intro l
  induction l with
  | nil =>
    intro a c hc
    simp only [List.mem_singleton] at hc
    simp [lastMax, hc]
  | cons x xs ih =>
    intro a c hc
    have hstep : lastMax a (x :: xs) = lastMax (if DT.le a x then x else a) xs := rfl
    rw [hstep]
    rcases List.mem_cons.mp hc with rfl | hc'
    · have h1 : c.day ≤ (if DT.le c x then x else c).day := by
        split
        · exact DT.le_day (by assumption)
        · exact le_refl _
      exact le_trans h1 (ih _ _ (List.mem_cons_self _ _))
    · rcases List.mem_cons.mp hc' with rfl | hc''
      · have h1 : c.day ≤ (if DT.le a c then c else a).day := by
          split
          · exact le_refl _
          · next hne => exact DT.day_le_of_not_le (Bool.eq_false_iff.mpr hne)
        exact le_trans h1 (ih _ _ (List.mem_cons_self _ _))
      · exact ih _ c (List.mem_cons_of_mem _ hc'')

theorem lastMax_append (a t : DT) (l : List DT) :
    lastMax a (l ++ [t]) = if DT.le (lastMax a l) t then t else lastMax a l := by
  simp [lastMax, List.foldl_append]

theorem is_task_completed_nil {h : Habit} (hn : h.completions = []) (t : DT) :
    is_task_completed_for_period h t = false := by
  simp [is_task_completed_for_period, hn]

theorem walkStreak_eq_takeWhile (p : Int → Bool) (low : Int) (s : Nat) (a : Int) :
    walkStreak p low s a = ((backAnchors low s a).takeWhile p).length := by
  rw [walkStreak, backAnchors]
  by_cases hl : low ≤ a
  · rw [if_pos hl, if_pos hl, List.takeWhile_cons]
    by_cases hp : p a
    · rw [if_pos hp, if_pos hp, List.length_cons,
        walkStreak_eq_takeWhile p low s (a - (s + 1))]
      omega
    · rw [if_neg hp, if_neg hp]
      rfl
  · rw [if_neg hl, if_neg hl]
    rfl
termination_by (a + 1 - low).toNat
decreasing_by simp_wf; omega

theorem takeWhile_backAnchors (p : Int → Bool) (low : Int) (s : Nat) (a : Int) :
    (∀ i : Nat, i < ((backAnchors low s a).takeWhile p).length →
      p (a - (s + 1) * i) = true) ∧
    (0 < ((backAnchors low s a).takeWhile p).length →
      low ≤ a - (s + 1) * ((((backAnchors low s a).takeWhile p).length - 1 : Nat) : Int)) := by
  by_cases hl : low ≤ a
  · have hb : backAnchors low s a = a :: backAnchors low s (a - (s + 1)) := by
      rw [backAnchors, if_pos hl]
    by_cases hp : p a
    · have ih := takeWhile_backAnchors p low s (a - (s + 1))
      rw [hb, List.takeWhile_cons, if_pos hp]
      constructor
      · intro i hi
        simp only [List.length_cons] at hi
        cases i with
        | zero => simpa using hp
        | succ j =>
          have hj : j < ((backAnchors low s (a - (s + 1))).takeWhile p).length := by omega
          have hrec := ih.1 j hj
          have harg : a - ((s : Int) + 1) * ((j : Int) + 1) =
              (a - ((s : Int) + 1)) - ((s : Int) + 1) * (j : Int) := by ring
          push_cast
          rw [harg]
          exact hrec
      · intro _
        simp only [List.length_cons]
        by_cases h0 : 0 < ((backAnchors low s (a - (s + 1))).takeWhile p).length
        · have h2 := ih.2 h0
          have heq : (a - ((s : Int) + 1)) - ((s : Int) + 1) *
                (((((backAnchors low s (a - (s + 1))).takeWhile p).length - 1 : Nat)) : Int) =
              a - ((s : Int) + 1) *
                ((((backAnchors low s (a - (s + 1))).takeWhile p).length + 1 - 1 : Nat) : Int) := by
            have hc1 : (((((backAnchors low s (a - (s + 1))).takeWhile p).length - 1 : Nat)) : Int) =
                ((((backAnchors low s (a - (s + 1))).takeWhile p).length : Nat) : Int) - 1 := by
              omega
            have hc2 : (((((backAnchors low s (a - (s + 1))).takeWhile p).length + 1 - 1 : Nat)) : Int) =
                ((((backAnchors low s (a - (s + 1))).takeWhile p).length : Nat) : Int) := by
              omega
            rw [hc1, hc2]; ring
          rw [heq] at h2
          exact h2
        · have hK0 : ((backAnchors low s (a - (s + 1))).takeWhile p).length = 0 := by omega
          rw [hK0]
          simpa using hl
    · rw [hb, List.takeWhile_cons, if_neg hp]
      refine ⟨?_, ?_⟩
      · intro i hi; simp at hi
      · intro hx; simp at hx
  · have hb : backAnchors low s a = [] := by rw [backAnchors, if_neg hl]
    rw [hb]
    refine ⟨?_, ?_⟩
    · intro i hi; simp at hi
    · intro hx; simp at hx
termination_by (a + 1 - low).toNat
decreasing_by simp_wf; omega

theorem longestScan_eq (l : List Bool) :
    ∀ longest current : Nat, longestScan l longest current = max longest (maxAux current l) := by
  induction l with
  | nil => intro lo c; simp [longestScan, maxAux]
  | cons b rest ih =>
    intro lo c
    cases b
    · simp [longestScan, maxAux, ih]
    · simp only [longestScan, maxAux, ih, Nat.max_assoc]

theorem maxAux_mono : ∀ (l : List Bool) {c c' : Nat}, c ≤ c' → maxAux c l ≤ maxAux c' l := by
  intro l
  induction l with
  | nil => intro c c' _; simp [maxAux]
  | cons b rest ih =>
    intro c c' h
    cases b
    · simp only [maxAux]; exact le_refl _
    · simp only [maxAux]
      exact max_le_max (by omega) (ih (by omega))

theorem replicate_prefix_le_maxAux :
    ∀ (n : Nat) (l : List Bool) (c : Nat),
      List.replicate n true <+: l → 1 ≤ n → c + n ≤ maxAux c l := by
  intro n
  induction n with
  | zero => intro l c _ h; omega
  | succ m ih =>
    intro l c hpre _
    rw [List.replicate_succ] at hpre
    obtain ⟨t, ht⟩ := hpre
    rw [List.cons_append] at ht
    subst ht
    simp only [maxAux]
    rcases Nat.eq_zero_or_pos m with hm | hm
    · subst hm
      have : c + 1 ≤ max (c + 1) (maxAux (c + 1) (List.replicate 0 true ++ t)) :=
        le_max_left _ _
      omega
    · have hrec := ih (List.replicate m true ++ t) (c + 1) ⟨t, rfl⟩ hm
      have : c + 1 + m ≤ max (c + 1) (maxAux (c + 1) (List.replicate m true ++ t)) :=
        le_trans hrec (le_max_right _ _)
      omega

theorem replicate_infix_le_maxAux :
    ∀ (l : List Bool) (n : Nat),
      List.IsInfix (List.replicate n true) l → n ≤ maxAux 0 l := by
  intro l
  induction l with
  | nil =>
    intro n h
    have := h.length_le
    simp only [List.length_replicate, List.length_nil] at this
    omega
  | cons b rest ih =>
    intro n h
    rcases List.infix_cons_iff.mp h with hpre | hinf
    · cases n with
      | zero => exact Nat.zero_le _
      | succ m =>
        have := replicate_prefix_le_maxAux (m + 1) (b :: rest) 0 hpre (by omega)
        omega
    · have hn := ih n hinf
      cases b
      · simpa only [maxAux] using hn
      · simp only [maxAux]
        exact le_trans (le_trans hn (maxAux_mono rest (by omega))) (le_max_right _ _)

theorem maxAux_realize :
    ∀ (l : List Bool) (c : Nat),
      maxAux c l = 0 ∨
        List.IsInfix (List.replicate (maxAux c l) true) (List.replicate c true ++ l) := by
  intro l
  induction l with
  | nil => intro c; left; rfl
  | cons b rest ih =>
    intro c
    cases b
    · rcases ih 0 with h0 | hinf
      · left; simpa only [maxAux] using h0
      · right
        simp only [maxAux]
        have h1 : List.IsInfix (List.replicate (maxAux 0 rest) true) rest := by
          simpa using hinf
        have h2 : List.IsSuffix rest ((List.replicate c true ++ [false]) ++ rest) :=
          List.suffix_append _ _
        have h3 : (List.replicate c true ++ [false]) ++ rest =
            List.replicate c true ++ (false :: rest) := by
          rw [List.append_assoc]; rfl
        rw [h3] at h2
        exact h1.trans h2.isInfix
    · have key : List.replicate c true ++ true :: rest =
          List.replicate (c + 1) true ++ rest := by
        rw [List.replicate_succ', List.append_assoc]; rfl
      simp only [maxAux]
      right
      rw [key]
      rcases ih (c + 1) with h0 | hinf
      · rw [h0, Nat.max_eq_left (Nat.zero_le _)]
        exact (List.prefix_append _ _).isInfix
      · rcases Nat.le_total (c + 1) (maxAux (c + 1) rest) with hle | hle
        · rw [Nat.max_eq_right hle]; exact hinf
        · rw [Nat.max_eq_left hle]
          exact (List.prefix_append _ _).isInfix

theorem maxAux_zero_realize (l : List Bool) :
    List.IsInfix (List.replicate (maxAux 0 l) true) l := by
  rcases maxAux_realize l 0 with h0 | h
  · rw [h0]; exact List.nil_infix
  · simpa using h

theorem replicate_suffix_of_forall (p : Int → Bool) (g : Nat → Int) (cnt k : Nat)
    (hk : k ≤ cnt) (hall : ∀ j : Nat, cnt - k ≤ j → j < cnt → p (g j) = true) :
    List.IsSuffix (List.replicate k true) ((List.range cnt).map (fun i => p (g i))) := by
  have hdrop : ((List.range cnt).map (fun i => p (g i))).drop (cnt - k) =
      List.replicate k true := by
    apply List.ext_getElem
    · simp only [List.length_drop, List.length_map, List.length_range,
        List.length_replicate]
      omega
    · intro i h1 h2
      simp only [List.length_replicate] at h2
      rw [List.getElem_drop]
      simp only [List.getElem_map, List.getElem_range, List.getElem_replicate]
      exact hall (cnt - k + i) (by omega) (by omega)
  have hsuf := List.drop_suffix (cnt - k) ((List.range cnt).map (fun i => p (g i)))
  rw [hdrop] at hsuf
  exact hsuf

theorem find?_eq_head?_filter {α : Type} (p : α → Bool) :
    ∀ l : List α, l.find? p = (l.filter p).head? := by
  intro l
  induction l with
  | nil => rfl
  | cons x xs ih =>
    by_cases hx : p x
    · simp [List.find?, List.filter_cons, hx]
    · have hx' : p x = false := Bool.eq_false_iff.mpr hx
      simp only [List.find?, List.filter_cons, hx', if_false, Bool.false_eq_true]
      exact ih

theorem length_filter_split {α : Type} (p : α → Bool) :
    ∀ l : List α, (l.filter p).length + (l.filter (fun x => !p x)).length = l.length := by
  intro l
  induction l with
  | nil => rfl
  | cons x xs ih =>
    by_cases hx : p x
    · simp [List.filter_cons, hx]
      omega
    · simp [List.filter_cons, hx]
      omega

theorem get_current_streak_cons (h : Habit) (now : DT) (c : DT) (cs : List DT)
    (hc : h.completions = c :: cs) :
    get_current_streak h now =
      (if h.periodicity = "daily" then
        if (lastMax c cs).day < now.day then 0
        else walkStreak (completedOn h) h.created_at.day 0 now.day
      else
        if (lastMax c cs).day < now.day - weekday now.day then 0
        else walkStreak (completedOn h) h.created_at.day 6 (now.day - weekday now.day)) := by
  unfold get_current_streak
  rw [hc]

theorem latestCompletionDay_cons (h : Habit) (c : DT) (cs : List DT)
    (hc : h.completions = c :: cs) : latestCompletionDay h = (lastMax c cs).day := by
  unfold latestCompletionDay
  rw [hc]

/-! ### Claim theorems -/

/-- C3 counterexample. The claim says the three statistics are functions of
the habit snapshot and an explicitly supplied `now`, never reading an
ambient clock. In the source there is no `now` parameter: `get_current_streak`
reads `datetime.now()` internally, so two invocations on the very same habit
snapshot (`exDaily`) return different results once the ambient clock has
moved from day 0 to day 1. -/
theorem clock_dependence_counterexample :
    get_current_streak exDaily ⟨0, 0⟩ ≠ get_current_streak exDaily ⟨1, 0⟩ := by
  have h1 : get_current_streak exDaily ⟨0, 0⟩ = 1 := by
    simp [get_current_streak, exDaily, lastMax, walkStreak, completedOn,
      is_task_completed_for_period, weekday]
  have h2 : get_current_streak exDaily ⟨1, 0⟩ = 0 := by
    simp [get_current_streak, exDaily, lastMax]
  rw [h1, h2]
  decide

/-- C3 (amended): the three statistics read the ambient clock internally via
`datetime.now()` rather than taking `now` as an argument, so the clock
reading is an input; given the habit snapshot, the results depend on that
internally-read value only through its calendar date — two invocations whose
clock reads fall on the same date always return identical results. -/
theorem clock_date_invariance (h : Habit) (n1 n2 : DT) (days : Nat)
    (hday : n1.day = n2.day) :
    get_current_streak h n1 = get_current_streak h n2 ∧
      get_longest_streak h n1 = get_longest_streak h n2 ∧
      is_struggling h n1 days = is_struggling h n2 days := by
  obtain ⟨d1, t1⟩ := n1
  obtain ⟨d2, t2⟩ := n2
  simp only at hday
  subst hday
  exact ⟨rfl, rfl, rfl⟩

/-- Witness for C3's amended theorem at concrete inputs. -/
theorem clock_date_invariance_witness :
    (DT.mk 5 0).day = (DT.mk 5 999).day ∧
      (get_current_streak exDaily ⟨5, 0⟩ = get_current_streak exDaily ⟨5, 999⟩ ∧
        get_longest_streak exDaily ⟨5, 0⟩ = get_longest_streak exDaily ⟨5, 999⟩ ∧
        is_struggling exDaily ⟨5, 0⟩ 30 = is_struggling exDaily ⟨5, 999⟩ 30) :=
  ⟨rfl, clock_date_invariance exDaily ⟨5, 0⟩ ⟨5, 999⟩ 30 rfl⟩

/-- C4: for a habit with at least one completion, if the period anchor of the
latest completion is strictly before the period anchor of the current date,
`get_current_streak` returns 0. -/
theorem current_streak_zero_of_stale_latest (h : Habit) (now : DT)
    (hne : h.completions ≠ [])
    (hgap : periodAnchor h.periodicity (latestCompletionDay h) <
      periodAnchor h.periodicity now.day) :
    get_current_streak h now = 0 := by
  obtain ⟨c, cs, hc⟩ : ∃ c cs, h.completions = c :: cs := by
    cases hcc : h.completions with
    | nil => exact absurd hcc hne
    | cons c cs => exact ⟨c, cs, rfl⟩
  rw [get_current_streak_cons h now c cs hc]
  rw [latestCompletionDay_cons h c cs hc] at hgap
  by_cases hp : h.periodicity = "daily"
  · rw [if_pos hp]
    simp only [periodAnchor, hp, if_pos] at hgap
    rw [if_pos hgap]
  · rw [if_neg hp]
    have hlt : (lastMax c cs).day < now.day - weekday now.day := by
      simp only [periodAnchor, if_neg hp, weekday] at hgap
      simp only [weekday]
      omega
    rw [if_pos hlt]

/-- Witness for C4 at concrete inputs: `exDaily`'s only completion is on day
0, the clock reads day 1, and the current streak is 0. -/
theorem current_streak_zero_of_stale_latest_witness :
    exDaily.completions ≠ [] ∧
      periodAnchor exDaily.periodicity (latestCompletionDay exDaily) <
        periodAnchor exDaily.periodicity (DT.mk 1 0).day ∧
      get_current_streak exDaily ⟨1, 0⟩ = 0 :=
  ⟨by decide, by decide,
    current_streak_zero_of_stale_latest exDaily ⟨1, 0⟩ (by decide) (by decide)⟩

/-- C5: `is_struggling` returns true iff strictly more in-window periods were
missed than completed and at least one in-window period exists; in
particular zero in-window periods is never struggling, and a tie between
missed and completed resolves to not struggling. (The second conjunct
records that missed and completed counts partition the checked periods.) -/
theorem is_struggling_iff (h : Habit) (now : DT) (days : Nat) :
    (is_struggling h now days = true ↔
      completed_periods h now.day days < broken_periods h now.day days ∧
        0 < (strugglingCheckDates h now.day days).length) ∧
    broken_periods h now.day days + completed_periods h now.day days =
      (strugglingCheckDates h now.day days).length ∧
    (strugglingCheckDates h now.day days = [] → is_struggling h now days = false) ∧
    (broken_periods h now.day days = completed_periods h now.day days →
      is_struggling h now days = false) := by
  have hsplit : completed_periods h now.day days + broken_periods h now.day days =
      (strugglingCheckDates h now.day days).length :=
    length_filter_split (fun d => completedOn h d) _
  refine ⟨?_, by omega, ?_, ?_⟩
  · simp only [is_struggling, Bool.and_eq_true, decide_eq_true_eq, gt_iff_lt]
    constructor
    · rintro ⟨h1, _⟩
      exact ⟨h1, by omega⟩
    · rintro ⟨h1, h2⟩
      exact ⟨h1, by omega⟩
  · intro hnil
    have hb : broken_periods h now.day days = 0 := by
      unfold broken_periods
      rw [hnil]
      rfl
    have hcp : completed_periods h now.day days = 0 := by
      unfold completed_periods
      rw [hnil]
      rfl
    simp [is_struggling, hb, hcp]
  · intro heq
    simp [is_struggling, heq]

/-- Witness for C5 at concrete inputs: a zero-day window yields no in-window
periods, so the habit is not struggling. -/
theorem is_struggling_iff_witness : is_struggling exDailyOld ⟨0, 0⟩ 0 = false :=
  (is_struggling_iff exDailyOld ⟨0, 0⟩ 0).2.2.1 (by decide)

/-- C9: constructing a habit with a cadence outside {daily, weekly} fails
with the `ValueError` (`InvalidCadence`), construction with daily or weekly
succeeds, and for constructed habits the streak operations are total: in
particular `get_current_streak`'s only fallible primitive,
`sorted(completions)[-1]`, is guarded by the emptiness check, so the
explicitly-fallible version always returns a value (the other three
operations contain no fallible primitive and are total by construction). -/
theorem construction_validation_and_totality :
    (∀ (n d p i : String) (ca : DT) (co : Option (List DT)),
        (p = "daily" ∨ p = "weekly") →
        ∃ hb : Habit, Habit.make n d p i ca co = Except.ok hb ∧
          hb.periodicity = p ∧ hb.completions = co.getD []) ∧
    (∀ (n d p i : String) (ca : DT) (co : Option (List DT)),
        p ≠ "daily" → p ≠ "weekly" →
        Habit.make n d p i ca co =
          Except.error "Periodicity must be 'daily' or 'weekly'") ∧
    (∀ (hb : Habit) (now : DT),
        get_current_streak? hb now = some (get_current_streak hb now)) := by
  refine ⟨?_, ?_, ?_⟩
  · intro n d p i ca co hp
    have hmem : p ∈ (["daily", "weekly"] : List String) := by
      rcases hp with rfl | rfl <;> simp
    unfold Habit.make
    rw [if_pos hmem]
    exact ⟨_, rfl, rfl, rfl⟩
  · intro n d p i ca co h1 h2
    unfold Habit.make
    rw [if_neg]
    intro hmem
    rcases List.mem_cons.mp hmem with rfl | hmem'
    · exact h1 rfl
    · rcases List.mem_singleton.mp hmem' with rfl
      exact h2 rfl
  · intro hb now
    cases hcc : hb.completions with
    | nil => simp [get_current_streak?, get_current_streak, hcc]
    | cons c cs =>
      simp only [get_current_streak?, get_current_streak, hcc, sortedLastCompletion,
        List.isEmpty_cons, Bool.false_eq_true, if_false]

/-- Witness for C9 at concrete inputs. -/
theorem construction_validation_and_totality_witness :
    ∃ hb : Habit,
      Habit.make "Morning Exercise" "exercise" "daily" "h1" ⟨0, 0⟩ none =
          Except.ok hb ∧
        hb.periodicity = "daily" ∧ hb.completions = (none : Option (List DT)).getD [] :=
  construction_validation_and_totality.1 "Morning Exercise" "exercise" "daily" "h1"
    ⟨0, 0⟩ none (Or.inl rfl)

/-- C10: the analytics lookups `get_longest_streak_for_habit` and
`get_current_streak_for_habit` return 0 when no habit in the list has the
given id, and otherwise return the first matching habit's longest and
current streak. -/
theorem streak_lookup_default :
    (∀ (habit_id : String) (habits : List Habit) (now : DT),
        (∀ hb ∈ habits, hb.id ≠ habit_id) →
        get_longest_streak_for_habit habit_id habits now = 0 ∧
          get_current_streak_for_habit habit_id habits now = 0) ∧
    (∀ (habit_id : String) (habits : List Habit) (now : DT) (hb : Habit),
        habits.find? (fun x => decide (x.id = habit_id)) = some hb →
        get_longest_streak_for_habit habit_id habits now = get_longest_streak hb now ∧
          get_current_streak_for_habit habit_id habits now = get_current_streak hb now) := by
  constructor
  · intro hid habits now hnone
    have hfil : habits.filter (fun h => decide (h.id = hid)) = [] := by
      rw [List.filter_eq_nil_iff]
      intro a ha
      simpa using hnone a ha
    constructor
    · unfold get_longest_streak_for_habit
      rw [hfil]
    · unfold get_current_streak_for_habit
      rw [hfil]
  · intro hid habits now hb hfind
    rw [find?_eq_head?_filter] at hfind
    obtain ⟨tl, htl⟩ : ∃ tl, habits.filter (fun x => decide (x.id = hid)) = hb :: tl := by
      cases hf : habits.filter (fun x => decide (x.id = hid)) with
      | nil =>
        rw [hf] at hfind
        simp at hfind
      | cons y ys =>
        rw [hf] at hfind
        simp only [List.head?_cons, Option.some.injEq] at hfind
        exact ⟨ys, by rw [hfind]⟩
    constructor
    · unfold get_longest_streak_for_habit
      rw [htl]
    · unfold get_current_streak_for_habit
      rw [htl]

/-- Witness for C10 at concrete inputs. -/
theorem streak_lookup_default_witness :
    get_longest_streak_for_habit "d1" [exDaily] ⟨0, 0⟩ =
        get_longest_streak exDaily ⟨0, 0⟩ ∧
      get_current_streak_for_habit "d1" [exDaily] ⟨0, 0⟩ =
        get_current_streak exDaily ⟨0, 0⟩ :=
  streak_lookup_default.2 "d1" [exDaily] ⟨0, 0⟩ exDaily (by rfl)

theorem takeWhile_backAnchors_zero_of_head_false (p : Int → Bool) (low : Int)
    (s : Nat) (a : Int) (hfa : p a = false) :
    ((backAnchors low s a).takeWhile p).length = 0 := by
  rw [backAnchors]
  by_cases hl : low ≤ a
  · rw [if_pos hl]
    simp [List.takeWhile_cons, hfa]
  · rw [if_neg hl]
    rfl

/-- C1 counterexample. The claim says the backward walk extends down to the
anchor of the ISO week containing `createdAt`. `exWeeklyMidweek` was created
on a Wednesday (day 2, week anchor day 0) and completed at creation; with
the clock still inside the creation week (day 3), the claimed walk counts
the completed creation week (1), but the code's loop bound
`check_date >= created_at.date()` stops before the creation week's Monday
anchor and returns 0. -/
theorem current_streak_claim_walk_counterexample :
    get_current_streak exWeeklyMidweek ⟨3, 0⟩ = 0 ∧
      claimStreakWalk exWeeklyMidweek ⟨3, 0⟩ = 1 := by
  constructor
  · simp [get_current_streak, exWeeklyMidweek, lastMax, weekday, walkStreak]
  · simp [claimStreakWalk, streakWalkFrom, exWeeklyMidweek, periodAnchor, weekday,
      streakStep, backAnchors, completedOn, is_task_completed_for_period, lastMax]

/-- C1 (amended): for every habit with a valid cadence, `get_current_streak`
equals the number of consecutive completed periods walking backward from the
period containing the current date, stopping at the first incomplete period
or once the anchor passes strictly before `createdAt`'s calendar date (not
the creation period's anchor: for weekly habits the creation week is part of
the walk only when `createdAt` falls on its Monday anchor). The early
returns of the source (empty completions, latest completion in an older
period) are absorbed by the walk: in both cases the walk itself counts 0. -/
theorem current_streak_eq_walk (h : Habit) (now : DT)
    (hcad : h.periodicity = "daily" ∨ h.periodicity = "weekly") :
    get_current_streak h now = streakWalkFrom h h.created_at.day now.day := by
  cases hc : h.completions with
  | nil =>
    have hL : get_current_streak h now = 0 := by
      unfold get_current_streak
      rw [hc]
    rw [hL]
    unfold streakWalkFrom
    rw [takeWhile_backAnchors_zero_of_head_false]
    unfold completedOn
    exact is_task_completed_nil hc _
  | cons c cs =>
    rw [get_current_streak_cons h now c cs hc]
    unfold streakWalkFrom
    rcases hcad with hp | hp
    · rw [if_pos hp]
      simp only [streakStep, periodAnchor, hp, if_pos]
      by_cases hlt : (lastMax c cs).day < now.day
      · rw [if_pos hlt]
        have hfalse : completedOn h now.day = false := by
          unfold completedOn is_task_completed_for_period
          rw [if_pos hp]
          apply List.any_eq_false.mpr
          intro x hx
          rw [hc] at hx
          have hxle := day_le_lastMax cs c x hx
          simp only [decide_eq_true_eq]
          intro hxe
          simp only [hxe] at hxle
          omega
        rw [takeWhile_backAnchors_zero_of_head_false _ _ _ _ hfalse]
      · rw [if_neg hlt]
        exact walkStreak_eq_takeWhile _ _ _ _
    · have hpd : ¬(h.periodicity = "daily") := by
        rw [hp]
        decide
      rw [if_neg hpd]
      simp only [streakStep, periodAnchor, if_neg hpd]
      by_cases hlt : (lastMax c cs).day < now.day - weekday now.day
      · rw [if_pos hlt]
        have hfalse : completedOn h (now.day - weekday now.day) = false := by
          unfold completedOn is_task_completed_for_period
          rw [if_neg hpd]
          apply List.any_eq_false.mpr
          intro x hx
          rw [hc] at hx
          have hxle := day_le_lastMax cs c x hx
          simp only [decide_eq_true_eq, weekday]
          simp only [weekday] at hlt
          omega
        rw [takeWhile_backAnchors_zero_of_head_false _ _ _ _ hfalse]
      · rw [if_neg hlt]
        exact walkStreak_eq_takeWhile _ _ _ _

/-- Witness for C1's amended theorem at concrete inputs. -/
theorem current_streak_eq_walk_witness :
    (exWeeklyMidweek.periodicity = "daily" ∨ exWeeklyMidweek.periodicity = "weekly") ∧
      get_current_streak exWeeklyMidweek ⟨3, 0⟩ =
        streakWalkFrom exWeeklyMidweek exWeeklyMidweek.created_at.day (DT.mk 3 0).day :=
  ⟨Or.inr rfl, current_streak_eq_walk exWeeklyMidweek ⟨3, 0⟩ (Or.inr rfl)⟩

/-- C6: `get_longest_streak` equals the maximum length of a run of
consecutive completed periods over the enumeration of all period anchors
from the creation period through the period containing the current date
(`allPeriods`, bounded by the internally-read clock date, not by the most
recent completion), and it returns 0 for a habit with no completions. The
maximum-run property is stated as: a run of that length occurs in the
status sequence, and no longer run occurs. -/
theorem longest_streak_max_run (h : Habit) (now : DT) :
    List.IsInfix (List.replicate (get_longest_streak h now) true)
        (completionStatus h now.day) ∧
      (∀ n : Nat, List.IsInfix (List.replicate n true) (completionStatus h now.day) →
        n ≤ get_longest_streak h now) ∧
      (h.completions = [] → get_longest_streak h now = 0) := by
  by_cases hc : h.completions.isEmpty
  · have hL : get_longest_streak h now = 0 := by
      unfold get_longest_streak
      rw [if_pos hc]
    refine ⟨?_, ?_, fun _ => hL⟩
    · rw [hL]
      simp only [List.replicate_zero]
      exact List.nil_infix
    · intro n hn
      rw [hL]
      by_contra hpos
      push_neg at hpos
      have htrue : true ∈ completionStatus h now.day := by
        apply hn.subset
        simp only [List.mem_replicate]
        exact ⟨by omega, trivial⟩
      unfold completionStatus at htrue
      rcases List.mem_map.mp htrue with ⟨d, _, hd⟩
      rw [completedOn, is_task_completed_nil (List.isEmpty_iff.mp hc)] at hd
      exact absurd hd (by decide)
  · have hL : get_longest_streak h now = maxAux 0 (completionStatus h now.day) := by
      unfold get_longest_streak
      rw [if_neg hc, longestScan_eq]
      simp
    refine ⟨?_, ?_, ?_⟩
    · rw [hL]
      exact maxAux_zero_realize _
    · intro n hn
      rw [hL]
      exact replicate_infix_le_maxAux _ n hn
    · intro hnil
      exact absurd (List.isEmpty_iff.mpr hnil) hc

/-- Witness for C6 at concrete inputs: `exDaily2` has completed days 0 and 1,
so a run of length 2 forces `get_longest_streak` to be at least 2. -/
theorem longest_streak_max_run_witness :
    (2 : Nat) ≤ get_longest_streak exDaily2 ⟨1, 0⟩ :=
  (longest_streak_max_run exDaily2 ⟨1, 0⟩).2.1 2 (by decide)

theorem walk_run_suffix (p : Int → Bool) (low a : Int) (s : Nat) (g : Nat → Int)
    (cnt : Nat) (hk : ((backAnchors low s a).takeWhile p).length ≤ cnt)
    (hg : ∀ j : Nat, j < cnt → g j = a - ((s : Int) + 1) * ((cnt : Int) - 1 - (j : Int))) :
    List.IsSuffix (List.replicate ((backAnchors low s a).takeWhile p).length true)
      ((List.range cnt).map (fun i => p (g i))) := by
  apply replicate_suffix_of_forall p g cnt _ hk
  intro j hj1 hj2
  have props := takeWhile_backAnchors p low s a
  have hi : cnt - 1 - j < ((backAnchors low s a).takeWhile p).length := by omega
  have hval := props.1 (cnt - 1 - j) hi
  rw [hg j hj2]
  have harg : ((cnt - 1 - j : Nat) : Int) = (cnt : Int) - 1 - (j : Int) := by omega
  rw [← harg]
  exact hval

theorem walk_count_le_maxAux (p : Int → Bool) (low a : Int) (s : Nat) (g : Nat → Int)
    (cnt : Nat) (hk : ((backAnchors low s a).takeWhile p).length ≤ cnt)
    (hg : ∀ j : Nat, j < cnt → g j = a - ((s : Int) + 1) * ((cnt : Int) - 1 - (j : Int))) :
    ((backAnchors low s a).takeWhile p).length ≤
      maxAux 0 ((List.range cnt).map (fun i => p (g i))) :=
  replicate_infix_le_maxAux _ _ (walk_run_suffix p low a s g cnt hk hg).isInfix

/-- C7: the longest streak is never smaller than the current streak, for any
habit with a valid cadence and any clock reading. -/
theorem longest_ge_current (h : Habit) (now : DT)
    (hcad : h.periodicity = "daily" ∨ h.periodicity = "weekly") :
    get_current_streak h now ≤ get_longest_streak h now := by
  cases hc : h.completions with
  | nil =>
    have hL : get_current_streak h now = 0 := by
      unfold get_current_streak
      rw [hc]
    rw [hL]
    exact Nat.zero_le _
  | cons c cs =>
    have hne : ¬h.completions.isEmpty = true := by
      rw [hc]
      simp
    have hLong : get_longest_streak h now = maxAux 0 (completionStatus h now.day) := by
      unfold get_longest_streak
      rw [if_neg hne, longestScan_eq]
      simp
    rw [hLong]
    rcases hcad with hp | hp
    · -- daily cadence
      have hcur : get_current_streak h now =
          ((backAnchors h.created_at.day 0 now.day).takeWhile (completedOn h)).length ∨
          get_current_streak h now = 0 := by
        rw [get_current_streak_cons h now c cs hc, if_pos hp]
        by_cases hlt : (lastMax c cs).day < now.day
        · right
          rw [if_pos hlt]
        · left
          rw [if_neg hlt]
          exact walkStreak_eq_takeWhile _ _ _ _
      rcases hcur with hcur | hcur
      swap
      · rw [hcur]
        exact Nat.zero_le _
      rw [hcur]
      rcases Nat.eq_zero_or_pos
        ((backAnchors h.created_at.day 0 now.day).takeWhile (completedOn h)).length
        with h0 | hpos
      · rw [h0]
        exact Nat.zero_le _
      have hlow := (takeWhile_backAnchors (completedOn h) h.created_at.day 0 now.day).2 hpos
      have hcle : h.created_at.day ≤ now.day := by
        have := hlow
        simp only [Nat.cast_zero, zero_add, one_mul] at this
        omega
      have hcnt_int : (((now.day - h.created_at.day + 1).toNat : Nat) : Int) =
          now.day - h.created_at.day + 1 := by omega
      have hap : completionStatus h now.day =
          (List.range ((now.day - h.created_at.day + 1).toNat)).map
            (fun i : Nat => completedOn h (h.created_at.day + (i : Int))) := by
        simp only [completionStatus, allPeriods]
        rw [if_pos hp, List.map_map]
        rfl
      rw [hap]
      apply walk_count_le_maxAux
      · simp only [Nat.cast_zero, zero_add, one_mul] at hlow
        omega
      · intro j hj
        simp only [Nat.cast_zero, zero_add, one_mul]
        omega
    · -- weekly cadence
      have hpd : ¬(h.periodicity = "daily") := by
        rw [hp]
        decide
      have hcur : get_current_streak h now =
          ((backAnchors h.created_at.day 6 (now.day - weekday now.day)).takeWhile
            (completedOn h)).length ∨
          get_current_streak h now = 0 := by
        rw [get_current_streak_cons h now c cs hc, if_neg hpd]
        by_cases hlt : (lastMax c cs).day < now.day - weekday now.day
        · right
          rw [if_pos hlt]
        · left
          rw [if_neg hlt]
          exact walkStreak_eq_takeWhile _ _ _ _
      rcases hcur with hcur | hcur
      swap
      · rw [hcur]
        exact Nat.zero_le _
      rw [hcur]
      rcases Nat.eq_zero_or_pos
        ((backAnchors h.created_at.day 6 (now.day - weekday now.day)).takeWhile
          (completedOn h)).length
        with h0 | hpos
      · rw [h0]
        exact Nat.zero_le _
      have hlow := (takeWhile_backAnchors (completedOn h) h.created_at.day 6
        (now.day - weekday now.day)).2 hpos
      have hcle : h.created_at.day ≤ now.day - weekday now.day := by
        have := hlow
        norm_num at this
        omega
      have hap : completionStatus h now.day =
          (List.range (((now.day - weekday now.day -
              (h.created_at.day - weekday h.created_at.day)) / 7 + 1).toNat)).map
            (fun i : Nat => completedOn h (h.created_at.day - weekday h.created_at.day +
              (i : Int) * 7)) := by
        simp only [completionStatus, allPeriods]
        rw [if_neg hpd, List.map_map]
        rfl
      rw [hap]
      apply walk_count_le_maxAux
      · norm_num at hlow
        simp only [weekday] at hlow hcle ⊢
        omega
      · intro j hj
        norm_num
        simp only [weekday] at hcle ⊢
        omega

/-- Witness for C7 at concrete inputs. -/
theorem longest_ge_current_witness :
    (exDaily.periodicity = "daily" ∨ exDaily.periodicity = "weekly") ∧
      get_current_streak exDaily ⟨0, 0⟩ ≤ get_longest_streak exDaily ⟨0, 0⟩ :=
  ⟨Or.inl rfl, longest_ge_current exDaily ⟨0, 0⟩ (Or.inl rfl)⟩

/-- C8: appending to a habit's completions a duplicate timestamp `t` whose
period already contains a completion `c` changes neither the per-period
completion test nor `get_current_streak`, `get_longest_streak` or
`is_struggling`. `h2` is the habit with the appended completion list. -/
theorem duplicate_completion_irrelevant (h h2 : Habit) (t c : DT)
    (hcmem : c ∈ h.completions)
    (hsame : periodAnchor h.periodicity t.day = periodAnchor h.periodicity c.day)
    (hid : h2.periodicity = h.periodicity) (hcr : h2.created_at = h.created_at)
    (hcomp : h2.completions = h.completions ++ [t]) :
    (∀ target : DT, is_task_completed_for_period h2 target =
      is_task_completed_for_period h target) ∧
    (∀ now : DT, get_current_streak h2 now = get_current_streak h now) ∧
    (∀ now : DT, get_longest_streak h2 now = get_longest_streak h now) ∧
    (∀ (now : DT) (days : Nat), is_struggling h2 now days = is_struggling h now days) := by
  have htest : ∀ target : DT, is_task_completed_for_period h2 target =
      is_task_completed_for_period h target := by
    intro target
    simp only [is_task_completed_for_period, hid, hcomp]
    by_cases hp : h.periodicity = "daily"
    · rw [if_pos hp, if_pos hp]
      rw [List.any_append]
      simp only [List.any_cons, List.any_nil, Bool.or_false]
      by_cases ht : t.day = target.day
      · have hcd : c.day = t.day := by
          simp only [periodAnchor, hp, if_pos] at hsame
          omega
        have hany : h.completions.any (fun x => decide (x.day = target.day)) = true := by
          apply List.any_eq_true.mpr
          refine ⟨c, hcmem, ?_⟩
          simp only [decide_eq_true_eq]
          omega
        rw [hany]
        simp
      · have hdec : decide (t.day = target.day) = false := by
          simpa using ht
        rw [hdec]
        simp
    · rw [if_neg hp, if_neg hp]
      rw [List.any_append]
      simp only [List.any_cons, List.any_nil, Bool.or_false]
      by_cases ht : target.day - weekday target.day ≤ t.day ∧
          t.day ≤ target.day - weekday target.day + 6
      · have hcin : target.day - weekday target.day ≤ c.day ∧
            c.day ≤ target.day - weekday target.day + 6 := by
          simp only [periodAnchor, if_neg hp, weekday] at hsame
          simp only [weekday] at ht ⊢
          omega
        have hany : h.completions.any (fun x =>
            decide (target.day - weekday target.day ≤ x.day ∧
              x.day ≤ target.day - weekday target.day + 6)) = true := by
          apply List.any_eq_true.mpr
          refine ⟨c, hcmem, ?_⟩
          simpa using hcin
        rw [hany]
        simp
      · have hdec : decide (target.day - weekday target.day ≤ t.day ∧
            t.day ≤ target.day - weekday target.day + 6) = false := by
          simpa using ht
        rw [hdec]
        simp
  have hwalk : completedOn h2 = completedOn h := by
    funext d
    rw [completedOn, completedOn, htest]
  obtain ⟨c0, cs, hc0⟩ : ∃ c0 cs, h.completions = c0 :: cs := by
    cases hcc : h.completions with
    | nil =>
      rw [hcc] at hcmem
      exact absurd hcmem (List.not_mem_nil c)
    | cons x xs => exact ⟨x, xs, rfl⟩
  have hcompcons : h2.completions = c0 :: (cs ++ [t]) := by
    rw [hcomp, hc0]
    rfl
  have hcmem0 : c ∈ c0 :: cs := by
    rw [← hc0]
    exact hcmem
  have hlast := lastMax_append c0 t cs
  refine ⟨htest, ?_, ?_, ?_⟩
  · -- current streak
    intro now
    rw [get_current_streak_cons h2 now c0 (cs ++ [t]) hcompcons,
      get_current_streak_cons h now c0 cs hc0, hid, hcr, hwalk]
    by_cases hp : h.periodicity = "daily"
    · rw [if_pos hp, if_pos hp]
      have hdayeq : (lastMax c0 (cs ++ [t])).day = (lastMax c0 cs).day := by
        rw [hlast]
        split
        · next hle =>
          have h1 := DT.le_day hle
          have hcd : c.day = t.day := by
            simp only [periodAnchor, hp, if_pos] at hsame
            omega
          have h2d := day_le_lastMax cs c0 c hcmem0
          omega
        · rfl
      rw [hdayeq]
    · rw [if_neg hp, if_neg hp]
      have hcond : ((lastMax c0 (cs ++ [t])).day < now.day - weekday now.day) ↔
          ((lastMax c0 cs).day < now.day - weekday now.day) := by
        rw [hlast]
        split
        · next hle =>
          have h1 := DT.le_day hle
          have hanch : t.day - weekday t.day = c.day - weekday c.day := by
            simpa only [periodAnchor, if_neg hp] using hsame
          have h2d := day_le_lastMax cs c0 c hcmem0
          simp only [weekday] at hanch ⊢
          omega
        · exact Iff.rfl
      by_cases hlt : (lastMax c0 cs).day < now.day - weekday now.day
      · rw [if_pos hlt, if_pos (hcond.mpr hlt)]
      · rw [if_neg hlt, if_neg (fun hx => hlt (hcond.mp hx))]
  · -- longest streak
    intro now
    have hstat : completionStatus h2 now.day = completionStatus h now.day := by
      simp only [completionStatus, allPeriods, hid, hcr, hwalk]
    have hne2 : ¬h2.completions.isEmpty = true := by
      rw [hcompcons]
      simp
    have hne1 : ¬h.completions.isEmpty = true := by
      rw [hc0]
      simp
    unfold get_longest_streak
    rw [if_neg hne2, if_neg hne1, hstat]
  · -- struggling
    intro now days
    have hdates : strugglingCheckDates h2 now.day days =
        strugglingCheckDates h now.day days := by
      simp only [strugglingCheckDates, hid, hcr]
    unfold is_struggling completed_periods broken_periods
    simp only [hdates, hwalk]

/-- Witness for C8 at concrete inputs: appending the duplicate `⟨1, 77⟩` (same
day as the existing completion `⟨1, 0⟩`) leaves the current streak unchanged. -/
theorem duplicate_completion_irrelevant_witness :
    (DT.mk 1 0) ∈ exDaily2.completions ∧
      periodAnchor exDaily2.periodicity (DT.mk 1 77).day =
        periodAnchor exDaily2.periodicity (DT.mk 1 0).day ∧
      get_current_streak
          ⟨"d2", "Read Book", "read", "daily", ⟨0, 0⟩, [⟨0, 0⟩, ⟨1, 0⟩, ⟨1, 77⟩]⟩ ⟨1, 0⟩ =
        get_current_streak exDaily2 ⟨1, 0⟩ :=
  ⟨by decide, by decide,
    (duplicate_completion_irrelevant exDaily2
      ⟨"d2", "Read Book", "read", "daily", ⟨0, 0⟩, [⟨0, 0⟩, ⟨1, 0⟩, ⟨1, 77⟩]⟩
      ⟨1, 77⟩ ⟨1, 0⟩ (by decide) (by decide) rfl rfl rfl).2.1 ⟨1, 0⟩⟩

/-- C2 counterexample. Three concrete divergences from the claimed anchor
set (anchors in the closed interval `[now - windowDays, now]` on/after the
creation anchor): with a 1-day window the claimed interval contains day
`now - 1`, which the code never checks (it scans only `windowDays` days,
excluding the left endpoint); with `now` on a Sunday and a 30-day window the
code checks the Monday 34 days back, outside the claimed interval; and for a
weekly habit created mid-week the code skips the creation week's Monday
anchor even though it is on/after the creation anchor and inside the
window. -/
theorem struggling_window_counterexample :
    (claimedStrugglingAnchor exDailyOld 0 1 (-1) ∧
      (-1 : Int) ∉ strugglingCheckDates exDailyOld 0 1) ∧
    ((-28 : Int) ∈ strugglingCheckDates exWeeklyOld 6 30 ∧
      ¬claimedStrugglingAnchor exWeeklyOld 6 30 (-28)) ∧
    (claimedStrugglingAnchor exWeeklyMidweek 3 30 0 ∧
      (0 : Int) ∉ strugglingCheckDates exWeeklyMidweek 3 30) := by
  unfold claimedStrugglingAnchor periodAnchor weekday
  refine ⟨⟨?_, ?_⟩, ⟨?_, ?_⟩, ⟨?_, ?_⟩⟩ <;> decide

/-- C2 (amended): the anchors the struggling scan checks are exactly: for
daily cadence, the days in the half-open interval
`(now - windowDays, now]` that are on/after `createdAt`'s calendar date;
otherwise, the Mondays `current_week_start - 7i` for
`0 ≤ i ≤ windowDays / 7` that are on/after `createdAt`'s calendar date —
a set that can reach below `now - windowDays` and that excludes the creation
week's anchor when `createdAt` is not a Monday. -/
theorem struggling_check_dates_mem (h : Habit) (today : Int) (days : Nat) (d : Int) :
    d ∈ strugglingCheckDates h today days ↔
      (if h.periodicity = "daily" then
        h.created_at.day ≤ d ∧ today - (days : Int) < d ∧ d ≤ today
      else
        h.created_at.day ≤ d ∧ weekday d = 0 ∧
          today - weekday today - 7 * ((days : Int) / 7) ≤ d ∧
          d ≤ today - weekday today) := by
  unfold strugglingCheckDates
  by_cases hp : h.periodicity = "daily"
  · rw [if_pos hp, if_pos hp]
    simp only [List.mem_filterMap, List.mem_range]
    constructor
    · rintro ⟨i, hi, hfi⟩
      split at hfi
      · next hcc =>
        simp only [Option.some.injEq] at hfi
        subst hfi
        refine ⟨by omega, by omega, by omega⟩
      · exact absurd hfi (by simp)
    · rintro ⟨h1, h2, h3⟩
      refine ⟨(today - d).toNat, by omega, ?_⟩
      have hi : today - (((today - d).toNat : Nat) : Int) = d := by omega
      simp only [hi]
      rw [if_pos h1]
  · rw [if_neg hp, if_neg hp]
    simp only [List.mem_filterMap, List.mem_range]
    constructor
    · rintro ⟨i, hi, hfi⟩
      split at hfi
      · next hcc =>
        simp only [Option.some.injEq] at hfi
        subst hfi
        simp only [weekday] at hcc ⊢
        refine ⟨by omega, by omega, by omega, by omega⟩
      · exact absurd hfi (by simp)
    · rintro ⟨h1, h2, h3, h4⟩
      simp only [weekday] at h2 h3 h4
      refine ⟨((today - today % 7 - d) / 7).toNat, by omega, ?_⟩
      have hi : today - weekday today -
          ((((today - today % 7 - d) / 7).toNat : Nat) : Int) * 7 = d := by
        simp only [weekday]
        omega
      simp only [hi]
      rw [if_pos h1]

/-- Witness for C2's amended theorem at concrete inputs: day 0 satisfies the
daily-side characterization for a 1-day window, so the scan checks it. -/
theorem struggling_check_dates_mem_witness :
    (0 : Int) ∈ strugglingCheckDates exDailyOld 0 1 :=
  (struggling_check_dates_mem exDailyOld 0 1 0).mpr (by decide)
